/-
Verification of the Smart Merge add-on core (src/smart_merge.py).

Shallow embedding notes:
* Vertex coordinates are modelled as rational triples (the host stores
  floats; all example inputs use exactly representable values, and the
  JSON record round-trips coordinates exactly in the model, which spec
  section 4.3 permits).
* `KDTree.find_range(co, radius)` (documented domain: radius in [0, inf])
  returns all inserted points whose distance to `co` is at most `radius`;
  we model it as the list of vertex ids within the closed ball, in
  ascending id order.  The code wraps the result in `list(set(...))`,
  whose iteration order CPython leaves unspecified; that reordering is
  modelled by an explicit parameter `sigma` constrained by `PySetList`
  (it may permute the deduplicated result arbitrarily).
* Python dicts (`merge_map`, `idx_map`, the stored `mapping`) are
  modelled as association lists with last-write-wins lookup (`dput` /
  `dget`); every key the code ever writes is an original vertex id, i.e.
  lies below the vertex count, so scanning `List.range n` recovers the
  dict's value set (`keeperMem` models `set(merge_map.values())`).
* A Python statement that can raise (indexing an empty group, a missing
  dict key, an out-of-range list index) is modelled by `Option`; `none`
  means the exception escapes the surrounding function, which has no
  handler in the source.
-/
import Mathlib

attribute [local semireducible] Rat.add Rat.mul Rat.sub

/-- A 3D coordinate, as stored for one vertex. -/
abbrev V3 : Type := ℚ × ℚ × ℚ

/-- Default coordinate used only for in-range `getD` accesses. -/
def v3z : V3 := (0, 0, 0)

/-- Squared Euclidean distance between two coordinates. -/
def dist2 (p q : V3) : ℚ :=
  (p.1 - q.1) * (p.1 - q.1) + (p.2.1 - q.2.1) * (p.2.1 - q.2.1) +
    (p.2.2 - q.2.2) * (p.2.2 - q.2.2)

/-- Model of `KDTree.find_range(co, radius)` over the tree holding
`coords[i]` with id `i`: ids whose point lies in the closed ball of the
given radius around `co`, in ascending id order.  A negative radius
(outside the documented domain of `find_range`) matches nothing. -/
def find_range (coords : List V3) (co : V3) (radius : ℚ) : List ℕ :=
  if radius < 0 then []
  else (List.range coords.length).filter
    (fun j => decide (dist2 (coords.getD j v3z) co ≤ radius * radius))

/-- `sigma` models `list(set(...))` applied to the `find_range` result:
it returns the same ids, without duplicates, in an order CPython does not
specify. -/
def PySetList (sigma : List ℕ → List ℕ) : Prop :=
  ∀ l : List ℕ, (sigma l).Nodup ∧ ∀ x : ℕ, x ∈ sigma l ↔ x ∈ l

/-- One admissible `list(set(...))` order: ascending (first occurrences). -/
def pyAsc (l : List ℕ) : List ℕ := l.dedup

/-- Another admissible `list(set(...))` order: reversed.  CPython really
produces such orders: `list({1, 32})` evaluates to `[32, 1]`. -/
def pyRev (l : List ℕ) : List ℕ := l.dedup.reverse

/-- A Python dict from ints to ints: association list, last write wins. -/
abbrev Dict : Type := List (ℕ × ℕ)

/-- `d[k] = v` (dict store). -/
def dput (d : Dict) (k v : ℕ) : Dict := d ++ [(k, v)]

/-- `d.get(k)` (dict lookup; `none` when the key is absent). -/
def dget (d : Dict) (k : ℕ) : Option ℕ := d.reverse.lookup k

/-- The clustering loop (source lines 46-55): iterate ids in ascending
order, skip visited ids, otherwise query the ball around the seed and
append it as one group, marking all of its members visited. -/
def clusterLoop (ball : ℕ → List ℕ) (visited : List ℕ)
    (acc : List (List ℕ)) : List ℕ → List (List ℕ)
  | [] => acc
  | i :: rest =>
    if i ∈ visited then clusterLoop ball visited acc rest
    else clusterLoop ball (visited ++ ball i) (acc ++ [ball i]) rest

/-- The groups produced by the clustering phase. -/
def clusterGroups (sigma : List ℕ → List ℕ) (coords : List V3)
    (threshold : ℚ) : List (List ℕ) :=
  clusterLoop (fun i => sigma (find_range coords (coords.getD i v3z) threshold))
    [] [] (List.range coords.length)

/-- Source lines 57-61: `keeper = group[0]`; every member of the group is
mapped to the keeper.  Indexing an empty group raises, hence `Option`. -/
def buildMergeMapLoop (d : Dict) : List (List ℕ) → Option Dict
  | [] => some d
  | g :: rest =>
    match g with
    | [] => none
    | keeper :: _ =>
      buildMergeMapLoop (g.foldl (fun d2 idx => dput d2 idx keeper) d) rest

/-- `keeper_set = set(int(v) for v in merge_map.values())`: since every
key of `merge_map` is an id below `n`, the value set is recovered by
scanning `0..n-1`. -/
def keeperMem (m : Dict) (n : ℕ) (k : ℕ) : Bool :=
  ((List.range n).filterMap (dget m)).contains k

/-- The keepers in ascending id order. -/
def keepers (m : Dict) (n : ℕ) : List ℕ :=
  (List.range n).filter (fun i => keeperMem m n i)

/-- Source lines 64-70: first rebuild loop; a keeper id receives the next
compact id (`len(new_verts)`) and its coordinate is appended. -/
def buildIdxFirstLoop (isK : ℕ → Bool) (cg : ℕ → V3) (d : Dict)
    (vs : List V3) : List ℕ → Dict × List V3
  | [] => (d, vs)
  | i :: rest =>
    if isK i then buildIdxFirstLoop isK cg (dput d i vs.length) (vs ++ [cg i]) rest
    else buildIdxFirstLoop isK cg d vs rest

/-- Source lines 72-77: second rebuild loop.  `merge_map[str(i)]` raises
on a missing key (`none` aborts); a keeper missing from `idx_map` only
prints a warning (recorded here) and skips the vertex. -/
def buildIdxMapLoop (m : Dict) (idxm : Dict) (warns : List ℕ) :
    List ℕ → Option (Dict × List ℕ)
  | [] => some (idxm, warns)
  | i :: rest =>
    match dget m i with
    | none => none
    | some mergeTo =>
      match dget idxm mergeTo with
      | none => buildIdxMapLoop m idxm (warns ++ [i]) rest
      | some c => buildIdxMapLoop m (dput idxm i c) warns rest

/-- Build a list through a fallible elementwise function, stopping at the
first failure (a Python list comprehension whose body may raise). -/
def optMap {α β : Type} (f : α → Option β) : List α → Option (List β)
  | [] => some []
  | a :: l =>
    match f a with
    | none => none
    | some b =>
      match optMap f l with
      | none => none
      | some bs => some (b :: bs)

/-- Source lines 81-85: rewrite each face through `idx_map`; keep it only
when the rewritten ids are pairwise distinct; preserve face order.
`idx_map[i]` raises on a missing key. -/
def buildFacesLoop (idxm : Dict) (acc : List (List ℕ)) :
    List (List ℕ) → Option (List (List ℕ))
  | [] => some acc
  | face :: rest =>
    match optMap (dget idxm) face with
    | none => none
    | some nf =>
      buildFacesLoop idxm (if nf.Nodup then acc ++ [nf] else acc) rest

/-- The face filter the rebuild applies: rewrite through the table, keep
only faces whose rewritten ids are pairwise distinct. -/
def rewriteFace (idxm : Dict) (f : List ℕ) : Option (List ℕ) :=
  match optMap (dget idxm) f with
  | none => none
  | some g => if g.Nodup then some g else none

/-- Everything the merge computes (intermediate tables included, so the
theorems can speak about them). -/
structure MergeOutput where
  groups : List (List ℕ)
  merge_map : Dict
  idx_first : Dict
  idx_map : Dict
  warnings : List ℕ
  new_verts : List V3
  new_faces : List (List ℕ)
deriving DecidableEq

/-- The persisted Merge Record (source lines 17-22): the final composed
index table, the original coordinates and the original faces.  The JSON
encoding round-trips these exactly in the model. -/
structure MergeRecord where
  mapping : Dict
  original_coords : List V3
  original_faces : List (List ℕ)
deriving DecidableEq

/-- `store_merge_data`: the record written to the object's persistence
slot on merge (source line 94 passes the final `idx_map`). -/
def store_merge_data (mapping : Dict) (original_coords : List V3)
    (original_faces : List (List ℕ)) : MergeRecord :=
  ⟨mapping, original_coords, original_faces⟩

/-- `load_merge_data`: `none` when the slot holds no record. -/
def load_merge_data (slot : Option MergeRecord) : Option MergeRecord := slot

/-- `smart_merge_topo` on a mesh snapshot (source lines 29-95), returning
everything it computes; `none` models an uncaught exception. -/
def smart_merge_topo (sigma : List ℕ → List ℕ) (coords : List V3)
    (faces : List (List ℕ)) (threshold : ℚ) : Option MergeOutput :=
  match buildMergeMapLoop [] (clusterGroups sigma coords threshold) with
  | none => none
  | some m =>
    match buildIdxFirstLoop (fun i => keeperMem m coords.length i)
        (fun i => coords.getD i v3z) [] [] (List.range coords.length) with
    | (idxf, nv) =>
      match buildIdxMapLoop m idxf [] (List.range coords.length) with
      | none => none
      | some (idxm, warns) =>
        match buildFacesLoop idxm [] faces with
        | none => none
        | some nf =>
          some ⟨clusterGroups sigma coords threshold, m, idxf, idxm, warns, nv, nf⟩

/-- Outcome of `smart_restore_topo`: the missing-record early return, an
uncaught exception, or a newly created mesh (coordinates and faces). -/
inductive RestoreResult where
  | noData : RestoreResult
  | error : RestoreResult
  | created (coords : List V3) (faces : List (List ℕ)) : RestoreResult
deriving DecidableEq

/-- `smart_restore_topo` (source lines 97-121): without a record it
reports and returns; otherwise each original id is placed at the current
position of the compact vertex its stored mapping names.  A missing
mapping key or an out-of-range compact id raises before any mesh or
object is created. -/
def smart_restore_topo (slot : Option MergeRecord) (current : List V3) :
    RestoreResult :=
  match load_merge_data slot with
  | none => RestoreResult.noData
  | some r =>
    match optMap (fun i =>
        match dget r.mapping i with
        | none => none
        | some c => current.get? c)
        (List.range r.original_coords.length) with
    | none => RestoreResult.error
    | some restored => RestoreResult.created restored r.original_faces

theorem dget_nil (k : ℕ) : dget [] k = none := rfl

theorem dget_dput (d : Dict) (k v j : ℕ) :
    dget (dput d k v) j = if j = k then some v else dget d j := by
  unfold dget dput
  rw [List.reverse_append]
  by_cases h : j = k
  · simp [h, List.lookup]
  · simp [List.lookup, h, beq_false_of_ne h]

theorem dget_dput_self (d : Dict) (k v : ℕ) : dget (dput d k v) k = some v := by
  simp [dget_dput]

theorem isSome_dget_dput {d : Dict} {j : ℕ} (k v : ℕ)
    (h : (dget d j).isSome = true) : (dget (dput d k v) j).isSome = true := by
  rw [dget_dput]
  by_cases hj : j = k <;> simp [hj, h]

theorem nodup_find_range (coords : List V3) (co : V3) (r : ℚ) :
    (find_range coords co r).Nodup := by
  unfold find_range
  by_cases h : r < 0 <;> simp [h]
  exact List.Nodup.filter _ (List.nodup_range _)

theorem mem_find_range (coords : List V3) (co : V3) (r : ℚ) (j : ℕ) :
    j ∈ find_range coords co r ↔
      j < coords.length ∧ ¬ r < 0 ∧ dist2 (coords.getD j v3z) co ≤ r * r := by
  unfold find_range
  by_cases h : r < 0 <;>
    simp [h, List.mem_filter, List.mem_range, and_assoc]

theorem pyAsc_valid : PySetList pyAsc :=
  fun l => ⟨l.nodup_dedup, fun _ => List.mem_dedup⟩

theorem pyRev_valid : PySetList pyRev := by
  intro l
  constructor
  · exact List.nodup_reverse.mpr l.nodup_dedup
  · intro x
    rw [pyRev, List.mem_reverse, List.mem_dedup]

theorem eq_singleton_of_mem_iff {l : List ℕ} {a : ℕ}
    (hn : l.Nodup) (hm : ∀ x, x ∈ l ↔ x = a) : l = [a] := by
  cases l with
  | nil => exact absurd ((hm a).2 rfl) (List.not_mem_nil a)
  | cons b t =>
    have hb : b = a := (hm b).1 (List.mem_cons_self b t)
    subst hb
    cases t with
    | nil => rfl
    | cons c t2 =>
      have hc : c = b := (hm c).1 (List.mem_cons_of_mem b (List.mem_cons_self c t2))
      subst hc
      simp [List.nodup_cons] at hn

theorem pyset_singleton {sigma : List ℕ → List ℕ} (h : PySetList sigma) (a : ℕ) :
    sigma [a] = [a] := by
  refine eq_singleton_of_mem_iff (h [a]).1 (fun x => ?_)
  rw [(h [a]).2 x]
  simp

theorem optMap_length {α β : Type} (f : α → Option β) :
    ∀ l l', optMap f l = some l' → l'.length = l.length := by
  intro l
  induction l with
  | nil => intro l' h; simp [optMap] at h; simp [← h]
  | cons a t ih =>
    intro l' h
    simp only [optMap] at h
    cases hfa : f a with
    | none => rw [hfa] at h; exact absurd h (by simp)
    | some b =>
      rw [hfa] at h
      cases hom : optMap f t with
      | none => rw [hom] at h; exact absurd h (by simp)
      | some bs =>
        rw [hom] at h
        simp at h
        rw [← h]
        simp [ih bs hom]

theorem optMap_get? {α β : Type} (f : α → Option β) :
    ∀ l l', optMap f l = some l' → ∀ i, l'.get? i = (l.get? i).bind f := by
  intro l
  induction l with
  | nil =>
    intro l' h i
    simp [optMap] at h
    subst h
    rfl
  | cons a t ih =>
    intro l' h i
    simp only [optMap] at h
    cases hfa : f a with
    | none => rw [hfa] at h; exact absurd h (by simp)
    | some b =>
      rw [hfa] at h
      cases hom : optMap f t with
      | none => rw [hom] at h; exact absurd h (by simp)
      | some bs =>
        rw [hom] at h
        simp at h
        subst h
        cases i with
        | zero => rw [List.get?_cons_zero, List.get?_cons_zero]; simp [hfa]
        | succ n =>
          rw [List.get?_cons_succ, List.get?_cons_succ]
          exact ih bs hom n

theorem optMap_eq_none {α β : Type} (f : α → Option β) :
    ∀ l a, a ∈ l → f a = none → optMap f l = none := by
  intro l
  induction l with
  | nil => intro a h; exact absurd h (List.not_mem_nil a)
  | cons b t ih =>
    intro a h hfa
    rcases List.mem_cons.1 h with h1 | h2
    · subst h1; simp [optMap, hfa]
    · simp only [optMap]
      cases hfb : f b with
      | none => rfl
      | some bb => rw [ih a h2 hfa]

theorem optMap_isSome {α β : Type} (f : α → Option β) :
    ∀ l, (∀ a ∈ l, (f a).isSome = true) → ∃ l', optMap f l = some l' := by
  intro l
  induction l with
  | nil => intro _; exact ⟨[], rfl⟩
  | cons a t ih =>
    intro h
    have ha := h a (List.mem_cons_self a t)
    cases hfa : f a with
    | none => rw [hfa] at ha; simp at ha
    | some b =>
      rcases ih (fun x hx => h x (List.mem_cons_of_mem a hx)) with ⟨bs, hbs⟩
      exact ⟨b :: bs, by simp [optMap, hfa, hbs]⟩

theorem optMap_id_of_fix (f : ℕ → Option ℕ) :
    ∀ l, (∀ a ∈ l, f a = some a) → optMap f l = some l := by
  intro l
  induction l with
  | nil => intro _; rfl
  | cons a t ih =>
    intro h
    simp [optMap, h a (List.mem_cons_self a t),
      ih (fun x hx => h x (List.mem_cons_of_mem a hx))]

theorem dist2_self (p : V3) : dist2 p p = 0 := by
  simp [dist2]

theorem clusterLoop_acc_sub (ball : ℕ → List ℕ) :
    ∀ l visited acc g, g ∈ acc → g ∈ clusterLoop ball visited acc l := by
  intro l
  induction l with
  | nil => intro v acc g h; exact h
  | cons i rest ih =>
    intro v acc g h
    simp only [clusterLoop]
    by_cases hv : i ∈ v
    · rw [if_pos hv]; exact ih v acc g h
    · rw [if_neg hv]
      exact ih (v ++ ball i) (acc ++ [ball i]) g (List.mem_append_left _ h)

theorem clusterLoop_covers (ball : ℕ → List ℕ) :
    ∀ l visited acc,
      (∀ s ∈ l, s ∈ ball s) →
      (∀ j ∈ visited, ∃ g, g ∈ acc ∧ j ∈ g) →
      ∀ j, (j ∈ l ∨ j ∈ visited) →
        ∃ g, g ∈ clusterLoop ball visited acc l ∧ j ∈ g := by
  intro l
  induction l with
  | nil =>
    intro v acc _ hinv j hj
    rcases hj with hj | hj
    · exact absurd hj (List.not_mem_nil j)
    · exact hinv j hj
  | cons i rest ih =>
    intro v acc hball hinv j hj
    simp only [clusterLoop]
    by_cases hv : i ∈ v
    · rw [if_pos hv]
      refine ih v acc (fun s hs => hball s (List.mem_cons_of_mem i hs)) hinv j ?_
      rcases hj with hj | hj
      · rcases List.mem_cons.1 hj with h1 | h2
        · exact Or.inr (h1 ▸ hv)
        · exact Or.inl h2
      · exact Or.inr hj
    · rw [if_neg hv]
      have hinv2 : ∀ j2 ∈ v ++ ball i, ∃ g, g ∈ acc ++ [ball i] ∧ j2 ∈ g := by
        intro j2 hj2
        rcases List.mem_append.1 hj2 with h1 | h2
        · rcases hinv j2 h1 with ⟨g, hg, hjg⟩
          exact ⟨g, List.mem_append_left _ hg, hjg⟩
        · exact ⟨ball i, List.mem_append_right _ (List.mem_singleton_self _), h2⟩
      refine ih (v ++ ball i) (acc ++ [ball i])
        (fun s hs => hball s (List.mem_cons_of_mem i hs)) hinv2 j ?_
      rcases hj with hj | hj
      · rcases List.mem_cons.1 hj with h1 | h2
        · subst h1
          exact Or.inr (List.mem_append_right _ (hball j (List.mem_cons_self j rest)))
        · exact Or.inl h2
      · exact Or.inr (List.mem_append_left _ hj)

theorem clusterLoop_shape (ball : ℕ → List ℕ) :
    ∀ l visited acc g, g ∈ clusterLoop ball visited acc l →
      g ∈ acc ∨ ∃ s, s ∈ l ∧ g = ball s := by
  intro l
  induction l with
  | nil => intro v acc g h; exact Or.inl h
  | cons i rest ih =>
    intro v acc g h
    simp only [clusterLoop] at h
    by_cases hv : i ∈ v
    · rw [if_pos hv] at h
      rcases ih v acc g h with h1 | ⟨s, hs, hgs⟩
      · exact Or.inl h1
      · exact Or.inr ⟨s, List.mem_cons_of_mem i hs, hgs⟩
    · rw [if_neg hv] at h
      rcases ih (v ++ ball i) (acc ++ [ball i]) g h with h1 | ⟨s, hs, hgs⟩
      · rcases List.mem_append.1 h1 with h2 | h3
        · exact Or.inl h2
        · exact Or.inr ⟨i, List.mem_cons_self i rest, List.mem_singleton.1 h3⟩
      · exact Or.inr ⟨s, List.mem_cons_of_mem i hs, hgs⟩

theorem clusterGroups_shape (sigma : List ℕ → List ℕ) (coords : List V3)
    (t : ℚ) :
    ∀ g ∈ clusterGroups sigma coords t, ∃ s, s < coords.length ∧
      g = sigma (find_range coords (coords.getD s v3z) t) := by
  intro g hg
  rcases clusterLoop_shape _ _ _ _ g hg with h1 | ⟨s, hs, hgs⟩
  · exact absurd h1 (List.not_mem_nil g)
  · exact ⟨s, List.mem_range.1 hs, hgs⟩

theorem clusterGroups_covers {sigma : List ℕ → List ℕ}
    (hs : PySetList sigma) (coords : List V3) {t : ℚ} (ht : 0 ≤ t) :
    ∀ i < coords.length, ∃ g, g ∈ clusterGroups sigma coords t ∧ i ∈ g := by
  intro i hi
  refine clusterLoop_covers _ _ _ _ ?_ ?_ i (Or.inl (List.mem_range.2 hi))
  · intro s hsl
    rw [(hs _).2 s, mem_find_range]
    refine ⟨List.mem_range.1 hsl, not_lt.2 ht, ?_⟩
    rw [dist2_self]
    exact mul_nonneg ht ht
  · intro j hj
    exact absurd hj (List.not_mem_nil j)

theorem clusterGroups_mem {sigma : List ℕ → List ℕ}
    (hs : PySetList sigma) (coords : List V3) (t : ℚ) :
    ∀ g ∈ clusterGroups sigma coords t, ∀ a ∈ g, a < coords.length ∧
      ∃ s, s < coords.length ∧
        dist2 (coords.getD a v3z) (coords.getD s v3z) ≤ t * t ∧
        ∀ b ∈ g, dist2 (coords.getD b v3z) (coords.getD s v3z) ≤ t * t := by
  intro g hg a ha
  rcases clusterGroups_shape sigma coords t g hg with ⟨s, hsn, hgs⟩
  subst hgs
  have hmem : ∀ b ∈ sigma (find_range coords (coords.getD s v3z) t),
      b < coords.length ∧
      dist2 (coords.getD b v3z) (coords.getD s v3z) ≤ t * t := by
    intro b hb
    have := (mem_find_range coords (coords.getD s v3z) t b).1 (((hs _).2 b).1 hb)
    exact ⟨this.1, this.2.2⟩
  exact ⟨(hmem a ha).1, s, hsn, (hmem a ha).2, fun b hb => (hmem b hb).2⟩

theorem dget_foldl_dput (keeper : ℕ) :
    ∀ (g : List ℕ) (d : Dict) (j : ℕ),
      dget (g.foldl (fun d2 idx => dput d2 idx keeper) d) j =
        if j ∈ g then some keeper else dget d j := by
  intro g
  induction g with
  | nil => intro d j; simp
  | cons a t ih =>
    intro d j
    rw [List.foldl_cons, ih (dput d a keeper) j]
    by_cases h1 : j ∈ t
    · simp [h1, List.mem_cons]
    · by_cases h2 : j = a <;> simp [h1, h2, List.mem_cons, dget_dput]

theorem buildMergeMapLoop_val (R : ℕ → ℕ → Prop) :
    ∀ (gs : List (List ℕ)) (d m : Dict), buildMergeMapLoop d gs = some m →
      (∀ i k, dget d i = some k → R i k) →
      (∀ g ∈ gs, ∀ keeper tl, g = keeper :: tl → ∀ i ∈ g, R i keeper) →
      ∀ i k, dget m i = some k → R i k := by
  intro gs
  induction gs with
  | nil =>
    intro d m h hd _ i k hik
    simp [buildMergeMapLoop] at h
    exact hd i k (h ▸ hik)
  | cons g rest ih =>
    intro d m h hd hgs i k hik
    cases g with
    | nil => exact absurd h (by simp [buildMergeMapLoop])
    | cons keeper tl =>
      simp only [buildMergeMapLoop] at h
      refine ih _ m h ?_
        (fun g2 hg2 => hgs g2 (List.mem_cons_of_mem _ hg2)) i k hik
      intro i2 k2 hik2
      rw [dget_foldl_dput] at hik2
      by_cases hmem : i2 ∈ keeper :: tl
      · rw [if_pos hmem] at hik2
        cases hik2
        exact hgs _ (List.mem_cons_self _ _) keeper tl rfl i2 hmem
      · rw [if_neg hmem] at hik2
        exact hd i2 k2 hik2

theorem buildMergeMapLoop_dom :
    ∀ (gs : List (List ℕ)) (d m : Dict), buildMergeMapLoop d gs = some m →
      ∀ j, (dget m j).isSome = true ↔
        ((dget d j).isSome = true ∨ ∃ g ∈ gs, j ∈ g) := by
  intro gs
  induction gs with
  | nil =>
    intro d m h j
    simp [buildMergeMapLoop] at h
    subst h
    simp
  | cons g rest ih =>
    intro d m h j
    cases g with
    | nil => exact absurd h (by simp [buildMergeMapLoop])
    | cons keeper tl =>
      simp only [buildMergeMapLoop] at h
      rw [ih _ m h j, dget_foldl_dput]
      by_cases hmem : j ∈ keeper :: tl
      · rw [if_pos hmem]
        exact iff_of_true (Or.inl rfl) (Or.inr ⟨_, List.mem_cons_self _ _, hmem⟩)
      · rw [if_neg hmem]
        constructor
        · rintro (h1 | ⟨g2, hg2, hjg2⟩)
          · exact Or.inl h1
          · exact Or.inr ⟨g2, List.mem_cons_of_mem _ hg2, hjg2⟩
        · rintro (h1 | ⟨g2, hg2, hjg2⟩)
          · exact Or.inl h1
          · rcases List.mem_cons.1 hg2 with h3 | h4
            · exact absurd (h3 ▸ hjg2) hmem
            · exact Or.inr ⟨g2, h4, hjg2⟩

theorem buildMergeMapLoop_some :
    ∀ (gs : List (List ℕ)) (d : Dict), (∀ g ∈ gs, g ≠ []) →
      ∃ m, buildMergeMapLoop d gs = some m := by
  intro gs
  induction gs with
  | nil => intro d _; exact ⟨d, rfl⟩
  | cons g rest ih =>
    intro d hne
    cases hg : g with
    | nil => exact absurd hg (hne g (List.mem_cons_self _ _))
    | cons keeper tl =>
      subst hg
      rcases ih (List.foldl (fun d2 idx => dput d2 idx keeper) d (keeper :: tl))
          (fun g2 hg2 => hne g2 (List.mem_cons_of_mem _ hg2)) with ⟨m, hm⟩
      exact ⟨m, by simp only [buildMergeMapLoop]; exact hm⟩

theorem buildIdxFirstLoop_spec (isK : ℕ → Bool) (cg : ℕ → V3) :
    ∀ (l : List ℕ) (d : Dict) (vs : List V3), l.Nodup →
      (buildIdxFirstLoop isK cg d vs l).2 = vs ++ (l.filter isK).map cg ∧
      (∀ j, j ∉ l → dget (buildIdxFirstLoop isK cg d vs l).1 j = dget d j) ∧
      (l.filter isK).map (dget (buildIdxFirstLoop isK cg d vs l).1)
        = (List.range' vs.length (l.filter isK).length).map some ∧
      (∀ j, (dget (buildIdxFirstLoop isK cg d vs l).1 j).isSome = true ↔
        ((dget d j).isSome = true ∨ (j ∈ l ∧ isK j = true))) := by
  intro l
  induction l with
  | nil =>
    intro d vs _
    refine ⟨by simp [buildIdxFirstLoop], fun j _ => rfl, ?_, ?_⟩
    · simp [buildIdxFirstLoop]
    · intro j
      simp [buildIdxFirstLoop]
  | cons a rest ih =>
    intro d vs hnd
    have hna : a ∉ rest := (List.nodup_cons.1 hnd).1
    have hnr : rest.Nodup := (List.nodup_cons.1 hnd).2
    by_cases hk : isK a = true
    · have hstep : buildIdxFirstLoop isK cg d vs (a :: rest)
          = buildIdxFirstLoop isK cg (dput d a vs.length) (vs ++ [cg a]) rest := by
        simp [buildIdxFirstLoop, hk]
      rcases ih (dput d a vs.length) (vs ++ [cg a]) hnr with ⟨ih1, ih2, ih3, ih4⟩
      rw [hstep, List.filter_cons_of_pos hk]
      refine ⟨?_, ?_, ?_, ?_⟩
      · rw [ih1]
        simp
      · intro j hj
        have hjr : j ∉ rest := fun h => hj (List.mem_cons_of_mem _ h)
        have hja : j ≠ a := fun h => hj (h ▸ List.mem_cons_self _ _)
        rw [ih2 j hjr, dget_dput, if_neg hja]
      · rw [List.map_cons, ih2 a hna, dget_dput_self, List.length_cons,
          List.range'_succ, List.map_cons, ih3]
        simp
      · intro j
        rw [ih4 j, dget_dput]
        by_cases hja : j = a
        · subst hja
          simp [hk]
        · rw [if_neg hja]
          simp [List.mem_cons, hja]
    · have hkf : isK a = false := by simpa using hk
      have hstep : buildIdxFirstLoop isK cg d vs (a :: rest)
          = buildIdxFirstLoop isK cg d vs rest := by
        simp [buildIdxFirstLoop, hkf]
      rcases ih d vs hnr with ⟨ih1, ih2, ih3, ih4⟩
      rw [hstep, List.filter_cons_of_neg (by simp [hkf])]
      refine ⟨ih1, ?_, ih3, ?_⟩
      · intro j hj
        exact ih2 j (fun h => hj (List.mem_cons_of_mem _ h))
      · intro j
        rw [ih4 j]
        by_cases hja : j = a
        · subst hja
          simp [hkf, hna]
        · simp [List.mem_cons, hja]

theorem mem_keepers {m : Dict} {n k : ℕ} :
    k ∈ keepers m n ↔ k < n ∧ keeperMem m n k = true := by
  rw [keepers, List.mem_filter, List.mem_range]


theorem keeperMem_iff {m : Dict} {n k : ℕ} :
    keeperMem m n k = true ↔ ∃ i, i < n ∧ dget m i = some k := by
  rw [keeperMem, List.contains, List.elem_eq_mem, decide_eq_true_eq,
    List.mem_filterMap]
  constructor
  · rintro ⟨i, hi, hik⟩
    exact ⟨i, List.mem_range.1 hi, hik⟩
  · rintro ⟨i, hi, hik⟩
    exact ⟨i, List.mem_range.2 hi, hik⟩

theorem idxFirst_entry (isK : ℕ → Bool) (cg : ℕ → V3) (l : List ℕ)
    (hnd : l.Nodup) (j c : ℕ)
    (h : dget (buildIdxFirstLoop isK cg [] [] l).1 j = some c) :
    c < (buildIdxFirstLoop isK cg [] [] l).2.length ∧
      (buildIdxFirstLoop isK cg [] [] l).2.get? c = some (cg j) := by
  rcases buildIdxFirstLoop_spec isK cg l [] [] hnd with ⟨h1, _, h3, h4⟩
  rw [List.length_nil, ← List.range_eq_range'] at h3
  rw [List.nil_append] at h1
  have hjl : j ∈ l.filter isK := by
    have := (h4 j).1 (by rw [h]; rfl)
    rcases this with hfalse | ⟨hmem, hkj⟩
    · exact absurd hfalse (by simp [dget_nil])
    · exact List.mem_filter.2 ⟨hmem, hkj⟩
  rcases List.mem_iff_get?.1 hjl with ⟨n, hn⟩
  have hlen : n < (l.filter isK).length := by
    rcases List.get?_eq_some.1 hn with ⟨hlt, _⟩
    exact hlt
  have hmapn : ((l.filter isK).map
      (dget (buildIdxFirstLoop isK cg [] [] l).1)).get? n
      = some (some c) := by
    rw [List.get?_map, hn]
    simp [h]
  rw [h3, List.get?_map, List.get?_range hlen] at hmapn
  simp at hmapn
  subst hmapn
  constructor
  · rw [h1, List.length_map]
    exact hlen
  · rw [h1, List.get?_map, hn]
    rfl

theorem buildIdxMapLoop_mkeys (m : Dict) :
    ∀ (l : List ℕ) (idxm : Dict) (w : List ℕ) (q : Dict × List ℕ),
      buildIdxMapLoop m idxm w l = some q →
      ∀ i ∈ l, (dget m i).isSome = true := by
  intro l
  induction l with
  | nil => intro _ _ _ _ i hi; exact absurd hi (List.not_mem_nil i)
  | cons a rest ih =>
    intro idxm w q h i hi
    simp only [buildIdxMapLoop] at h
    split at h
    · exact absurd h (by simp)
    · rename_i mt hma
      split at h
      · rcases List.mem_cons.1 hi with h1 | h2
        · subst h1; rw [hma]; rfl
        · exact ih _ _ _ h i h2
      · rcases List.mem_cons.1 hi with h1 | h2
        · subst h1; rw [hma]; rfl
        · exact ih _ _ _ h i h2

theorem buildIdxMapLoop_mono (m : Dict) :
    ∀ (l : List ℕ) (idxm : Dict) (w : List ℕ) (q : Dict × List ℕ),
      buildIdxMapLoop m idxm w l = some q →
      ∀ j, (dget idxm j).isSome = true → (dget q.1 j).isSome = true := by
  intro l
  induction l with
  | nil =>
    intro idxm w q h j hj
    simp only [buildIdxMapLoop, Option.some_inj] at h
    subst h
    exact hj
  | cons a rest ih =>
    intro idxm w q h j hj
    simp only [buildIdxMapLoop] at h
    split at h
    · exact absurd h (by simp)
    · rename_i mt hma
      split at h
      · exact ih _ _ _ h j hj
      · rename_i c hidx
        exact ih _ _ _ h j (isSome_dget_dput a c hj)

theorem buildIdxMapLoop_warns (m : Dict) :
    ∀ (l : List ℕ) (idxm : Dict) (w : List ℕ) (q : Dict × List ℕ),
      buildIdxMapLoop m idxm w l = some q →
      (∀ i k, dget m i = some k → (dget idxm k).isSome = true) →
      q.2 = w := by
  intro l
  induction l with
  | nil =>
    intro idxm w q h _
    simp only [buildIdxMapLoop, Option.some_inj] at h
    subst h
    rfl
  | cons a rest ih =>
    intro idxm w q h hvals
    simp only [buildIdxMapLoop] at h
    split at h
    · exact absurd h (by simp)
    · rename_i mt hma
      split at h
      · rename_i hidx
        have := hvals a mt hma
        rw [hidx] at this
        simp at this
      · rename_i c hidx
        refine ih _ _ _ h ?_
        intro i k hik
        exact isSome_dget_dput a c (hvals i k hik)

theorem buildIdxMapLoop_total (m : Dict) :
    ∀ (l : List ℕ) (idxm : Dict) (w : List ℕ) (q : Dict × List ℕ),
      buildIdxMapLoop m idxm w l = some q →
      (∀ i k, dget m i = some k → (dget idxm k).isSome = true) →
      ∀ i ∈ l, (dget q.1 i).isSome = true := by
  intro l
  induction l with
  | nil => intro _ _ _ _ _ i hi; exact absurd hi (List.not_mem_nil i)
  | cons a rest ih =>
    intro idxm w q h hvals i hi
    simp only [buildIdxMapLoop] at h
    split at h
    · exact absurd h (by simp)
    · rename_i mt hma
      split at h
      · rename_i hidx
        have := hvals a mt hma
        rw [hidx] at this
        simp at this
      · rename_i c hidx
        have hvals2 : ∀ i2 k, dget m i2 = some k →
            (dget (dput idxm a c) k).isSome = true :=
          fun i2 k hik => isSome_dget_dput a c (hvals i2 k hik)
        rcases List.mem_cons.1 hi with h1 | h2
        · subst h1
          exact buildIdxMapLoop_mono m rest _ _ _ h i
            (by rw [dget_dput_self]; rfl)
        · exact ih _ _ _ h hvals2 i h2

theorem buildIdxMapLoop_bound (m : Dict) (B : ℕ) :
    ∀ (l : List ℕ) (idxm : Dict) (w : List ℕ) (q : Dict × List ℕ),
      buildIdxMapLoop m idxm w l = some q →
      (∀ j c, dget idxm j = some c → c < B) →
      ∀ j c, dget q.1 j = some c → c < B := by
  intro l
  induction l with
  | nil =>
    intro idxm w q h hb j c hj
    simp only [buildIdxMapLoop, Option.some_inj] at h
    subst h
    exact hb j c hj
  | cons a rest ih =>
    intro idxm w q h hb j c hj
    simp only [buildIdxMapLoop] at h
    split at h
    · exact absurd h (by simp)
    · rename_i mt hma
      split at h
      · exact ih _ _ _ h hb j c hj
      · rename_i c2 hidx
        refine ih _ _ _ h ?_ j c hj
        intro j2 c3 hj2
        rw [dget_dput] at hj2
        by_cases hja : j2 = a
        · rw [if_pos hja] at hj2
          cases hj2
          exact hb mt c2 hidx
        · rw [if_neg hja] at hj2
          exact hb j2 c3 hj2

theorem buildIdxMapLoop_vert (m : Dict) (nv : List V3) (cg : ℕ → V3)
    (hm : ∀ i k, dget m i = some k → cg k = cg i) :
    ∀ (l : List ℕ) (idxm : Dict) (w : List ℕ) (q : Dict × List ℕ),
      buildIdxMapLoop m idxm w l = some q →
      (∀ j c, dget idxm j = some c → nv.get? c = some (cg j)) →
      ∀ j c, dget q.1 j = some c → nv.get? c = some (cg j) := by
  intro l
  induction l with
  | nil =>
    intro idxm w q h hv j c hj
    simp only [buildIdxMapLoop, Option.some_inj] at h
    subst h
    exact hv j c hj
  | cons a rest ih =>
    intro idxm w q h hv j c hj
    simp only [buildIdxMapLoop] at h
    split at h
    · exact absurd h (by simp)
    · rename_i mt hma
      split at h
      · exact ih _ _ _ h hv j c hj
      · rename_i c2 hidx
        refine ih _ _ _ h ?_ j c hj
        intro j2 c3 hj2
        rw [dget_dput] at hj2
        by_cases hja : j2 = a
        · rw [if_pos hja] at hj2
          cases hj2
          rw [hv mt c2 hidx, hm a mt hma, hja]
        · rw [if_neg hja] at hj2
          exact hv j2 c3 hj2


theorem buildFacesLoop_spec (idxm : Dict) :
    ∀ (fs acc nf : List (List ℕ)), buildFacesLoop idxm acc fs = some nf →
      nf = acc ++ fs.filterMap (rewriteFace idxm) := by
  intro fs
  induction fs with
  | nil =>
    intro acc nf h
    simp only [buildFacesLoop, Option.some_inj] at h
    subst h
    simp
  | cons face rest ih =>
    intro acc nf h
    simp only [buildFacesLoop] at h
    split at h
    · exact absurd h (by simp)
    · rename_i g hg
      have hrw : rewriteFace idxm face = if g.Nodup then some g else none := by
        rw [rewriteFace, hg]
      rw [List.filterMap_cons, hrw]
      by_cases hnd : g.Nodup
      · rw [if_pos hnd] at h ⊢
        rw [ih _ _ h, List.append_assoc]
        rfl
      · rw [if_neg hnd] at h ⊢
        exact ih _ _ h

theorem buildFacesLoop_some (idxm : Dict) :
    ∀ (fs acc : List (List ℕ)),
      (∀ f ∈ fs, ∀ i ∈ f, (dget idxm i).isSome = true) →
      ∃ nf, buildFacesLoop idxm acc fs = some nf := by
  intro fs
  induction fs with
  | nil => intro acc _; exact ⟨acc, rfl⟩
  | cons face rest ih =>
    intro acc hall
    rcases optMap_isSome (dget idxm) face
        (hall face (List.mem_cons_self _ _)) with ⟨g, hg⟩
    rcases ih (if g.Nodup then acc ++ [g] else acc)
        (fun f hf => hall f (List.mem_cons_of_mem _ hf)) with ⟨nf, hnf⟩
    refine ⟨nf, ?_⟩
    simp only [buildFacesLoop, hg]
    exact hnf

theorem smart_merge_inv {sigma : List ℕ → List ℕ} {coords : List V3}
    {faces : List (List ℕ)} {t : ℚ} {out : MergeOutput}
    (h : smart_merge_topo sigma coords faces t = some out) :
    buildMergeMapLoop [] (clusterGroups sigma coords t) = some out.merge_map ∧
    buildIdxFirstLoop (fun i => keeperMem out.merge_map coords.length i)
      (fun i => coords.getD i v3z) [] [] (List.range coords.length)
      = (out.idx_first, out.new_verts) ∧
    buildIdxMapLoop out.merge_map out.idx_first [] (List.range coords.length)
      = some (out.idx_map, out.warnings) ∧
    buildFacesLoop out.idx_map [] faces = some out.new_faces ∧
    out.groups = clusterGroups sigma coords t := by
  unfold smart_merge_topo at h
  split at h
  · exact absurd h (by simp)
  · rename_i m hm
    split at h
    rename_i idxf nv hp
    split at h
    · exact absurd h (by simp)
    · rename_i idxm warns hq
      split at h
      · exact absurd h (by simp)
      · rename_i nf hnf
        cases h
        exact ⟨hm, hp, hq, hnf, rfl⟩

theorem smart_restore_some (r : MergeRecord) (cur : List V3) :
    smart_restore_topo (some r) cur =
      match optMap (fun i => match dget r.mapping i with
          | none => none
          | some c => cur.get? c) (List.range r.original_coords.length) with
      | none => RestoreResult.error
      | some restored => RestoreResult.created restored r.original_faces := rfl

theorem restore_created_inv {r : MergeRecord} {cur rc : List V3}
    {fc : List (List ℕ)}
    (h : smart_restore_topo (some r) cur = RestoreResult.created rc fc) :
    optMap (fun i => match dget r.mapping i with
      | none => none
      | some c => cur.get? c) (List.range r.original_coords.length) = some rc ∧
    fc = r.original_faces := by
  rw [smart_restore_some] at h
  split at h
  · simp at h
  · rename_i restored hre
    cases h
    exact ⟨hre, rfl⟩

theorem restore_error_of_bad {r : MergeRecord} {cur : List V3}
    (hbad : ∃ i, i < r.original_coords.length ∧
      (match dget r.mapping i with
       | none => none
       | some c => cur.get? c) = none) :
    smart_restore_topo (some r) cur = RestoreResult.error := by
  rcases hbad with ⟨i, hi, hnone⟩
  rw [smart_restore_some, optMap_eq_none _ _ i (List.mem_range.2 hi) hnone]

theorem optMap_mem {α β : Type} (f : α → Option β) :
    ∀ l l', optMap f l = some l' → ∀ b ∈ l', ∃ a ∈ l, f a = some b := by
  intro l
  induction l with
  | nil =>
    intro l' h b hb
    simp [optMap] at h
    subst h
    exact absurd hb (List.not_mem_nil b)
  | cons a t ih =>
    intro l' h b hb
    simp only [optMap] at h
    split at h
    · exact absurd h (by simp)
    · rename_i b0 hfa
      split at h
      · exact absurd h (by simp)
      · rename_i bs hbs
        cases h
        rcases List.mem_cons.1 hb with h1 | h2
        · exact ⟨a, List.mem_cons_self _ _, h1 ▸ hfa⟩
        · rcases ih bs hbs b h2 with ⟨a2, ha2, hfa2⟩
          exact ⟨a2, List.mem_cons_of_mem _ ha2, hfa2⟩

theorem rewriteFace_inv {idxm : Dict} {face g : List ℕ}
    (h : rewriteFace idxm face = some g) :
    optMap (dget idxm) face = some g ∧ g.Nodup := by
  unfold rewriteFace at h
  split at h
  · exact absurd h (by simp)
  · rename_i g2 hg2
    by_cases hnd : g2.Nodup
    · rw [if_pos hnd] at h
      cases h
      exact ⟨hg2, hnd⟩
    · rw [if_neg hnd] at h
      exact absurd h (by simp)

theorem smart_merge_eq {sigma : List ℕ → List ℕ} {coords : List V3}
    {faces : List (List ℕ)} {t : ℚ} {m idxf idxm : Dict} {nv : List V3}
    {warns : List ℕ} {nf : List (List ℕ)}
    (hm : buildMergeMapLoop [] (clusterGroups sigma coords t) = some m)
    (hp : buildIdxFirstLoop (fun i => keeperMem m coords.length i)
      (fun i => coords.getD i v3z) [] [] (List.range coords.length)
      = (idxf, nv))
    (hq : buildIdxMapLoop m idxf [] (List.range coords.length)
      = some (idxm, warns))
    (hnf : buildFacesLoop idxm [] faces = some nf) :
    smart_merge_topo sigma coords faces t
      = some ⟨clusterGroups sigma coords t, m, idxf, idxm, warns, nv, nf⟩ := by
  unfold smart_merge_topo
  rw [hm]
  dsimp only
  rw [hp]
  dsimp only
  rw [hq]
  dsimp only
  rw [hnf]

theorem buildIdxMapLoop_some2 (m : Dict) :
    ∀ (l : List ℕ) (idxm : Dict) (w : List ℕ),
      (∀ i ∈ l, (dget m i).isSome = true) →
      ∃ q, buildIdxMapLoop m idxm w l = some q := by
  intro l
  induction l with
  | nil => intro idxm w _; exact ⟨(idxm, w), rfl⟩
  | cons a rest ih =>
    intro idxm w hall
    have ha := hall a (List.mem_cons_self _ _)
    cases hma : dget m a with
    | none => rw [hma] at ha; simp at ha
    | some mt =>
      cases hidx : dget idxm mt with
      | none =>
        rcases ih idxm (w ++ [a])
            (fun i hi => hall i (List.mem_cons_of_mem _ hi)) with ⟨q, hq⟩
        refine ⟨q, ?_⟩
        simp only [buildIdxMapLoop, hma, hidx]
        exact hq
      | some c =>
        rcases ih (dput idxm a c) w
            (fun i hi => hall i (List.mem_cons_of_mem _ hi)) with ⟨q, hq⟩
        refine ⟨q, ?_⟩
        simp only [buildIdxMapLoop, hma, hidx]
        exact hq

theorem buildIdxMapLoop_id (m : Dict) :
    ∀ (l : List ℕ) (idxm : Dict) (w : List ℕ) (q : Dict × List ℕ),
      buildIdxMapLoop m idxm w l = some q →
      (∀ i ∈ l, dget m i = some i) →
      ∀ j, dget q.1 j = dget idxm j := by
  intro l
  induction l with
  | nil =>
    intro idxm w q h _ j
    simp only [buildIdxMapLoop, Option.some_inj] at h
    subst h
    rfl
  | cons a rest ih =>
    intro idxm w q h hfix j
    have hma : dget m a = some a := hfix a (List.mem_cons_self _ _)
    simp only [buildIdxMapLoop, hma] at h
    cases hidx : dget idxm a with
    | none =>
      rw [hidx] at h
      exact ih _ _ _ h (fun i hi => hfix i (List.mem_cons_of_mem _ hi)) j
    | some c =>
      rw [hidx] at h
      have heq : ∀ j2, dget (dput idxm a c) j2 = dget idxm j2 := by
        intro j2
        rw [dget_dput]
        by_cases hja : j2 = a
        · rw [if_pos hja, hja, hidx]
        · rw [if_neg hja]
      rw [ih _ _ _ h (fun i hi => hfix i (List.mem_cons_of_mem _ hi)) j,
        heq j]

theorem filterMap_fix {α : Type} (f : α → Option α) :
    ∀ l : List α, (∀ a ∈ l, f a = some a) → l.filterMap f = l := by
  intro l
  induction l with
  | nil => intro _; rfl
  | cons a t ih =>
    intro h
    rw [List.filterMap_cons, h a (List.mem_cons_self _ _),
      ih (fun x hx => h x (List.mem_cons_of_mem _ hx))]

theorem dist2_nonneg (p q : V3) : 0 ≤ dist2 p q := by
  unfold dist2
  have h1 := mul_self_nonneg (p.1 - q.1)
  have h2 := mul_self_nonneg (p.2.1 - q.2.1)
  have h3 := mul_self_nonneg (p.2.2 - q.2.2)
  linarith

theorem dist2_eq_zero_iff (p q : V3) : dist2 p q = 0 ↔ p = q := by
  constructor
  · intro h
    unfold dist2 at h
    have h1 := mul_self_nonneg (p.1 - q.1)
    have h2 := mul_self_nonneg (p.2.1 - q.2.1)
    have h3 := mul_self_nonneg (p.2.2 - q.2.2)
    have e1 : (p.1 - q.1) * (p.1 - q.1) = 0 := by linarith
    have e2 : (p.2.1 - q.2.1) * (p.2.1 - q.2.1) = 0 := by linarith
    have e3 : (p.2.2 - q.2.2) * (p.2.2 - q.2.2) = 0 := by linarith
    have g1 : p.1 = q.1 := sub_eq_zero.1 (mul_self_eq_zero.1 e1)
    have g2 : p.2.1 = q.2.1 := sub_eq_zero.1 (mul_self_eq_zero.1 e2)
    have g3 : p.2.2 = q.2.2 := sub_eq_zero.1 (mul_self_eq_zero.1 e3)
    exact Prod.ext_iff.2 ⟨g1, Prod.ext_iff.2 ⟨g2, g3⟩⟩
  · intro h
    rw [h]
    exact dist2_self q

theorem find_range_zero_singleton {coords : List V3}
    (hinj : ∀ i j, i < coords.length → j < coords.length →
      coords.getD i v3z = coords.getD j v3z → i = j)
    {i : ℕ} (hi : i < coords.length) :
    find_range coords (coords.getD i v3z) 0 = [i] := by
  refine eq_singleton_of_mem_iff (nodup_find_range _ _ _) (fun x => ?_)
  rw [mem_find_range]
  constructor
  · rintro ⟨hx, _, hd⟩
    have hz : dist2 (coords.getD x v3z) (coords.getD i v3z) = 0 :=
      le_antisymm (by simpa using hd) (dist2_nonneg _ _)
    exact hinj x i hx hi ((dist2_eq_zero_iff _ _).1 hz)
  · rintro rfl
    refine ⟨hi, by norm_num, ?_⟩
    rw [dist2_self]
    simp

theorem clusterLoop_singletons (ball : ℕ → List ℕ) :
    ∀ (l visited : List ℕ) (acc : List (List ℕ)),
      (∀ i ∈ l, ball i = [i]) → (∀ i ∈ l, i ∉ visited) → l.Nodup →
      clusterLoop ball visited acc l = acc ++ l.map (fun i => [i]) := by
  intro l
  induction l with
  | nil => intro v acc _ _ _; simp [clusterLoop]
  | cons a rest ih =>
    intro v acc hball hvis hnd
    have hav : a ∉ v := hvis a (List.mem_cons_self _ _)
    have hba : ball a = [a] := hball a (List.mem_cons_self _ _)
    simp only [clusterLoop]
    rw [if_neg hav, hba,
      ih (v ++ [a]) (acc ++ [[a]])
        (fun i hi => hball i (List.mem_cons_of_mem _ hi))
        (fun i hi hmem => by
          rcases List.mem_append.1 hmem with h1 | h2
          · exact hvis i (List.mem_cons_of_mem _ hi) h1
          · exact (List.nodup_cons.1 hnd).1
              ((List.mem_singleton.1 h2) ▸ hi))
        (List.nodup_cons.1 hnd).2]
    simp

theorem buildMergeMap_singletons {n : ℕ} {m : Dict}
    (h : buildMergeMapLoop [] ((List.range n).map (fun i => [i])) = some m) :
    ∀ j, dget m j = if j < n then some j else none := by
  have hval : ∀ i k, dget m i = some k → i = k := by
    refine buildMergeMapLoop_val (fun i k => i = k) _ _ _ h
      (fun i k hik => absurd hik (by simp [dget_nil])) ?_
    intro g hg keeper tl hgk i hi
    rcases List.mem_map.1 hg with ⟨s, _, hs⟩
    subst hs
    injection hgk with h1 h2
    subst h1
    exact List.mem_singleton.1 hi
  have hdom := buildMergeMapLoop_dom _ _ _ h
  intro j
  by_cases hj : j < n
  · rw [if_pos hj]
    have hsome : (dget m j).isSome = true := by
      rw [hdom j]
      exact Or.inr ⟨[j], List.mem_map.2 ⟨j, List.mem_range.2 hj, rfl⟩,
        List.mem_singleton_self j⟩
    cases hget : dget m j with
    | none => rw [hget] at hsome; simp at hsome
    | some k => rw [← hval j k hget]
  · rw [if_neg hj]
    cases hget : dget m j with
    | some k =>
      have hsome : (dget m j).isSome = true := by rw [hget]; rfl
      rw [hdom j] at hsome
      rcases hsome with h1 | ⟨g, hg, hjg⟩
      · simp [dget_nil] at h1
      · rcases List.mem_map.1 hg with ⟨s, hsn, hs⟩
        subst hs
        exact absurd ((List.mem_singleton.1 hjg) ▸ List.mem_range.1 hsn) hj
    | none => rfl

theorem keepers_of_id {n : ℕ} {m : Dict}
    (hm : ∀ j, dget m j = if j < n then some j else none) :
    keepers m n = List.range n := by
  rw [keepers, List.filter_eq_self]
  intro i hi
  rw [keeperMem_iff]
  exact ⟨i, List.mem_range.1 hi,
    by rw [hm i, if_pos (List.mem_range.1 hi)]⟩

theorem map_dget_range_id {d : Dict} {n : ℕ}
    (h : (List.range n).map (dget d) = (List.range n).map some) :
    ∀ j, j < n → dget d j = some j := by
  intro j hj
  have h2 := congrArg (fun l => l.get? j) h
  simp only [List.get?_map, List.get?_range hj] at h2
  simpa using h2

theorem map_getD_range (l : List V3) :
    (List.range l.length).map (fun i => l.getD i v3z) = l := by
  apply List.ext
  intro n
  by_cases hn : n < l.length
  · rw [List.get?_map, List.get?_range hn, List.get?_eq_get hn]
    have h2 : l.getD n v3z = l.get ⟨n, hn⟩ := by
      simp [List.getD_eq_getElem?_getD, List.getElem?_eq_getElem hn,
        List.get_eq_getElem]
    rw [Option.map_some', h2]
  · rw [List.get?_map,
      List.get?_eq_none.2 (by simpa using not_lt.1 hn),
      List.get?_eq_none.2 (not_lt.1 hn)]
    rfl

/-- Claim C1: the claim says the keeper of each Cluster Group is the
minimum original id of the group.  The code takes `group[0]` of
`list(set(...))`, whose order CPython does not specify (for example
`list({1, 32})` is `[32, 1]`).  Under the admissible order `pyRev`, the
group of two coincident vertices is listed `[1, 0]` and both members are
mapped to keeper 1, not to the minimum 0.  The spec itself calls the
original behavior a latent bug, so this is a bug in the code, not in the
claim. -/
theorem C1_keeper_not_minimum :
    (smart_merge_topo pyRev [(0,0,0), (0,0,0)] [] 1).map
        (fun o => (o.groups, dget o.merge_map 0, dget o.merge_map 1))
      = some ([[1, 0]], some 1, some 1) := by decide

/-- Claim C2, counterexample: with vertices at x = 0, 9, 17 and threshold
10, the radius query at seed 2 recaptures vertex 1 (already grouped with
seed 0), so id 1 appears in two distinct groups: the clustering is not a
partition. -/
theorem C2_counterexample :
    (smart_merge_topo pyAsc [(0,0,0), (9,0,0), (17,0,0)] [] 10).map
        (fun o => o.groups) = some [[0, 1], [1, 2]] ∧
    (1 : ℕ) ∈ [0, 1] ∧ (1 : ℕ) ∈ [1, 2] ∧ ([0, 1] : List ℕ) ≠ [1, 2] := by
  decide

/-- Claim C2 (amended): for every snapshot, every admissible set order and
every non-negative threshold, every original vertex id appears in AT LEAST
one Cluster Group; a later seed's radius query may recapture an already
visited vertex, so groups may overlap and an id can lie in more than one
group. -/
theorem C2_amended (sigma : List ℕ → List ℕ) (coords : List V3) (t : ℚ)
    (hs : PySetList sigma) (ht : 0 ≤ t) :
    ∀ i < coords.length, ∃ g, g ∈ clusterGroups sigma coords t ∧ i ∈ g :=
  clusterGroups_covers hs coords ht

theorem C2_witness :
    ∃ g, g ∈ clusterGroups pyAsc [(0,0,0), (9,0,0), (17,0,0)] 10 ∧ 2 ∈ g :=
  C2_amended pyAsc [(0,0,0), (9,0,0), (17,0,0)] 10 pyAsc_valid
    (by decide) 2 (by decide)

/-- Claim C4: restore, on an object whose slot holds a record, copies into
position i the CURRENT position of the compact vertex the stored mapping
assigns to i (the keeper's live position at restore time), and copies the
stored original faces verbatim. -/
theorem C4_restore_uses_keeper_position (r : MergeRecord) (cur rc : List V3)
    (fc : List (List ℕ))
    (h : smart_restore_topo (some r) cur = RestoreResult.created rc fc) :
    fc = r.original_faces ∧ rc.length = r.original_coords.length ∧
    ∀ i, i < r.original_coords.length →
      ∃ c, dget r.mapping i = some c ∧ rc.get? i = cur.get? c ∧
        (cur.get? c).isSome = true := by
  rcases restore_created_inv h with ⟨hopt, hfc⟩
  have hlen : rc.length = r.original_coords.length := by
    rw [optMap_length _ _ _ hopt, List.length_range]
  refine ⟨hfc, hlen, ?_⟩
  intro i hi
  have hg := optMap_get? _ _ _ hopt i
  rw [List.get?_range hi] at hg
  have hg2 : rc.get? i = match dget r.mapping i with
      | none => none
      | some c => cur.get? c := hg
  have hsome : (rc.get? i).isSome = true := by
    rw [List.get?_eq_get (by rw [hlen]; exact hi)]
    rfl
  cases hc : dget r.mapping i with
  | none =>
    rw [hc] at hg2
    have hg3 : rc.get? i = none := hg2
    rw [hg3] at hsome
    simp at hsome
  | some c =>
    rw [hc] at hg2
    have hg3 : rc.get? i = cur.get? c := hg2
    refine ⟨c, rfl, hg3, ?_⟩
    rw [← hg3]
    exact hsome

theorem C4_witness :
    ∃ c, dget (store_merge_data [(0,0), (1,0)] [(0,0,0), (0,0,1)]
        [[0,1]]).mapping 1 = some c ∧
      ([(5,5,5), (5,5,5)] : List V3).get? 1
        = ([(5,5,5)] : List V3).get? c ∧
      (([(5,5,5)] : List V3).get? c).isSome = true :=
  (C4_restore_uses_keeper_position
    (store_merge_data [(0,0), (1,0)] [(0,0,0), (0,0,1)] [[0,1]])
    [(5,5,5)] [(5,5,5), (5,5,5)] [[0,1]] (by decide)).2.2 1 (by decide)

/-- Claim C5: the rebuilt face list is exactly the original face list
mapped through the stored composed index table (the spec's Merge Map
composed with the Index Table, which is what the code stores as
`idx_map`), keeping a face precisely when its rewritten ids are pairwise
distinct, dropping it entirely otherwise, and preserving the original
face order (filterMap keeps order and never repairs a face). -/
theorem C5_face_rewrite (sigma : List ℕ → List ℕ) (coords : List V3)
    (faces : List (List ℕ)) (t : ℚ) (out : MergeOutput)
    (h : smart_merge_topo sigma coords faces t = some out) :
    out.new_faces = faces.filterMap (rewriteFace out.idx_map) := by
  rcases smart_merge_inv h with ⟨_, _, _, hnf, _⟩
  have hspec := buildFacesLoop_spec out.idx_map faces [] out.new_faces hnf
  simpa using hspec

theorem C5_witness :
    (smart_merge_topo pyAsc [(0,0,0), (0,0,1), (5,0,0)] [[0,1,2], [2,0,1]] 2).map
        (fun o => o.new_faces)
      = (smart_merge_topo pyAsc [(0,0,0), (0,0,1), (5,0,0)] [[0,1,2], [2,0,1]] 2).map
        (fun o => [[0,1,2], [2,0,1]].filterMap (rewriteFace o.idx_map)) := by
  cases hm : smart_merge_topo pyAsc [(0,0,0), (0,0,1), (5,0,0)]
      [[0,1,2], [2,0,1]] 2 with
  | none => exact absurd hm (by decide)
  | some o =>
    have hc := C5_face_rewrite pyAsc [(0,0,0), (0,0,1), (5,0,0)]
      [[0,1,2], [2,0,1]] 2 o hm
    simp [hc]

/-- Claim C8: restore on an object whose persistence slot holds no Merge
Record reports that there is nothing to restore and performs no mutation:
the outcome is the dedicated no-data report, no mesh is created and no
exception escapes (the source prints and returns at lines 99-101). -/
theorem C8_restore_missing_record (cur : List V3) :
    smart_restore_topo none cur = RestoreResult.noData := rfl

/-- Claim C9, counterexample: on a malformed record (here the mapping has
no entry for original id 1 while two original coordinates are stored) the
restore outcome is the uncaught-exception result, not a locally reported
failure: the KeyError escapes `smart_restore_topo`, which has no handler,
so the claim's "aborts with a reported failure ... does not propagate" is
wrong about the code.  (No object is created on this path, which is the
part of the claim that does hold.) -/
theorem C9_counterexample :
    smart_restore_topo
      (some (store_merge_data [(0,0)] [(0,0,0), (0,0,1)] []))
      [(0,0,0)] = RestoreResult.error := by decide

/-- Claim C9 (amended): on a malformed record (a mapping entry missing
for some stored original id, or a mapping entry pointing outside the
current vertex array), restore fails with an uncaught exception
(KeyError / IndexError) raised before any mesh or object creation, so no
partially created object is left behind; the failure is not reported or
handled inside the operation, it propagates out of it (the host's
operator harness is what finally catches it). -/
theorem C9_amended (r : MergeRecord) (cur : List V3)
    (hbad : ∃ i, i < r.original_coords.length ∧
      (dget r.mapping i = none ∨
        ∃ c, dget r.mapping i = some c ∧ cur.length ≤ c)) :
    smart_restore_topo (some r) cur = RestoreResult.error := by
  apply restore_error_of_bad
  rcases hbad with ⟨i, hi, hcase⟩
  refine ⟨i, hi, ?_⟩
  rcases hcase with hn | ⟨c, hc, hlen⟩
  · rw [hn]
  · rw [hc]
    have : cur.get? c = none := List.get?_eq_none.2 hlen
    exact this

theorem C9_witness :
    smart_restore_topo
      (some (store_merge_data [(0,0), (1,5)] [(0,0,0), (0,0,1)] []))
      [(0,0,0)] = RestoreResult.error :=
  C9_amended (store_merge_data [(0,0), (1,5)] [(0,0,0), (0,0,1)] [])
    [(0,0,0)] ⟨1, by decide, Or.inr ⟨5, by decide, by decide⟩⟩

/-- Claim C6: the first rebuild loop walks original ids in ascending
order and hands the next compact id exactly to the keepers (the values of
the merge map), so the Index Table restricted to the keepers is the list
some 0, some 1, ... in keeper order with no gap and no repeat, ids other
than keepers have no entry, and the rebuilt vertex array has exactly one
entry per keeper. -/
theorem C6_index_compactness (sigma : List ℕ → List ℕ) (coords : List V3)
    (faces : List (List ℕ)) (t : ℚ) (out : MergeOutput)
    (h : smart_merge_topo sigma coords faces t = some out) :
    out.new_verts.length = (keepers out.merge_map coords.length).length ∧
    (keepers out.merge_map coords.length).map (dget out.idx_first)
      = (List.range out.new_verts.length).map some ∧
    ∀ j, (dget out.idx_first j).isSome = true ↔
      j ∈ keepers out.merge_map coords.length := by
  rcases smart_merge_inv h with ⟨_, hp, _, _, _⟩
  rcases buildIdxFirstLoop_spec
      (fun i => keeperMem out.merge_map coords.length i)
      (fun i => coords.getD i v3z) (List.range coords.length) [] []
      (List.nodup_range _) with ⟨h1, _, h3, h4⟩
  rw [hp] at h1 h3 h4
  simp only [List.nil_append, List.length_nil] at h1 h3
  have hk : keepers out.merge_map coords.length
      = (List.range coords.length).filter
          (fun i => keeperMem out.merge_map coords.length i) := rfl
  have hlen : out.new_verts.length
      = (keepers out.merge_map coords.length).length := by
    rw [hk, h1, List.length_map]
  refine ⟨hlen, ?_, ?_⟩
  · rw [hk, h3, ← List.range_eq_range', hlen, hk]
  · intro j
    rw [h4 j, hk, List.mem_filter, List.mem_range]
    simp [dget_nil]

theorem C6_witness :
    (smart_merge_topo pyAsc [(0,0,0), (0,0,1), (5,0,0)] [] 2).map
        (fun o => o.new_verts.length)
      = (smart_merge_topo pyAsc [(0,0,0), (0,0,1), (5,0,0)] [] 2).map
        (fun o => (keepers o.merge_map 3).length) ∧
    (smart_merge_topo pyAsc [(0,0,0), (0,0,1), (5,0,0)] [] 2).map
        (fun o => (keepers o.merge_map 3).map (dget o.idx_first))
      = (smart_merge_topo pyAsc [(0,0,0), (0,0,1), (5,0,0)] [] 2).map
        (fun o => (List.range o.new_verts.length).map some) := by
  cases hm : smart_merge_topo pyAsc [(0,0,0), (0,0,1), (5,0,0)] [] 2 with
  | none => exact absurd hm (by decide)
  | some o =>
    have hc := C6_index_compactness pyAsc [(0,0,0), (0,0,1), (5,0,0)]
      [] 2 o hm
    have e3 : ([(0,0,0), (0,0,1), (5,0,0)] : List V3).length = 3 := rfl
    rw [e3] at hc
    constructor
    · simp only [Option.map_some']
      rw [hc.1]
    · simp only [Option.map_some']
      rw [hc.2.1]

/-- Claim C10: whenever the merge completes (under an admissible set
order), the stored index table has an entry for every original id below
the vertex count, every vertex index in every rebuilt face is a valid
index into the rebuilt vertex array, and the defensive missing-keeper
warning branch never fires: every merge-map value is a keeper, keepers
all receive idx-map entries in the first loop, and the second loop only
copies existing compact ids. -/
theorem C10_safety (sigma : List ℕ → List ℕ) (coords : List V3)
    (faces : List (List ℕ)) (t : ℚ) (out : MergeOutput)
    (hs : PySetList sigma)
    (h : smart_merge_topo sigma coords faces t = some out) :
    (∀ i, i < coords.length → (dget out.idx_map i).isSome = true) ∧
    (∀ f ∈ out.new_faces, ∀ c ∈ f, c < out.new_verts.length) ∧
    out.warnings = [] := by
  rcases smart_merge_inv h with ⟨hm, hp, hq, hnf, _⟩
  have hkv : ∀ i k, dget out.merge_map i = some k →
      i < coords.length ∧ k < coords.length := by
    refine buildMergeMapLoop_val
      (fun i k => i < coords.length ∧ k < coords.length)
      _ _ _ hm (fun i k hik => absurd hik (by simp [dget_nil])) ?_
    intro g hg keeper tl hgk i hi
    have hmem := clusterGroups_mem hs coords t g hg
    exact ⟨(hmem i hi).1,
      (hmem keeper (by rw [hgk]; exact List.mem_cons_self _ _)).1⟩
  have hvals : ∀ i k, dget out.merge_map i = some k →
      (dget out.idx_first k).isSome = true := by
    intro i k hik
    rcases hkv i k hik with ⟨hi, hk⟩
    rcases buildIdxFirstLoop_spec
        (fun i => keeperMem out.merge_map coords.length i)
        (fun i => coords.getD i v3z) (List.range coords.length) [] []
        (List.nodup_range _) with ⟨_, _, _, h4⟩
    rw [hp] at h4
    rw [h4 k]
    exact Or.inr ⟨List.mem_range.2 hk, keeperMem_iff.2 ⟨i, hi, hik⟩⟩
  have hbound0 : ∀ j c, dget out.idx_first j = some c →
      c < out.new_verts.length := by
    intro j c hj
    have hent := idxFirst_entry
      (fun i => keeperMem out.merge_map coords.length i)
      (fun i => coords.getD i v3z) (List.range coords.length)
      (List.nodup_range _) j c (by rw [hp]; exact hj)
    rw [hp] at hent
    exact hent.1
  have htotal := buildIdxMapLoop_total out.merge_map _ _ _ _ hq hvals
  have hwarn : out.warnings = [] :=
    buildIdxMapLoop_warns out.merge_map _ _ _ _ hq hvals
  have hbound : ∀ j c, dget out.idx_map j = some c →
      c < out.new_verts.length :=
    buildIdxMapLoop_bound out.merge_map out.new_verts.length _ _ _ _ hq hbound0
  refine ⟨?_, ?_, hwarn⟩
  · intro i hi
    exact htotal i (List.mem_range.2 hi)
  · intro f hf c hc
    have hnfs := buildFacesLoop_spec out.idx_map faces [] out.new_faces hnf
    rw [List.nil_append] at hnfs
    rw [hnfs] at hf
    rcases List.mem_filterMap.1 hf with ⟨face, _, hrwf⟩
    rcases rewriteFace_inv hrwf with ⟨hopt, _⟩
    rcases optMap_mem _ _ _ hopt c hc with ⟨a, _, ha⟩
    exact hbound a c ha

theorem C10_witness :
    (smart_merge_topo pyAsc [(0,0,0), (0,0,1), (5,0,0)] [[0,1,2]] 2).map
        (fun o => o.warnings) = some [] ∧
    (smart_merge_topo pyAsc [(0,0,0), (0,0,1), (5,0,0)] [[0,1,2]] 2).map
        (fun o => (dget o.idx_map 2).isSome) = some true := by
  cases hm : smart_merge_topo pyAsc [(0,0,0), (0,0,1), (5,0,0)]
      [[0,1,2]] 2 with
  | none => exact absurd hm (by decide)
  | some o =>
    have hc := C10_safety pyAsc [(0,0,0), (0,0,1), (5,0,0)] [[0,1,2]] 2 o
      pyAsc_valid hm
    constructor
    · simp only [Option.map_some']
      rw [hc.2.2]
    · simp only [Option.map_some']
      rw [hc.1 2 (by decide)]

theorem get?_eq_getD {l : List V3} {i : ℕ} (hi : i < l.length) :
    l.get? i = some (l.getD i v3z) := by
  rw [List.get?_eq_get hi]
  have h2 : l.getD i v3z = l.get ⟨i, hi⟩ := by
    simp [List.getD_eq_getElem?_getD, List.getElem?_eq_getElem hi,
      List.get_eq_getElem]
  rw [h2]

/-- Claim C3, counterexample: weld two vertices at exact distance 1 with
threshold 2, then restore immediately with no edits.  The restored
coordinate list is [(0,0,0), (0,0,0)]: vertex 1 is placed at its keeper's
position, not at its stored original (0,0,1), so the restored coordinate
list is NOT the original coordinate list.  (Nothing here is a float
artifact: restore by design reads only keeper positions, claim C4.) -/
theorem C3_counterexample :
    (smart_merge_topo pyAsc [(0,0,0), (0,0,1)] [] 2).map
        (fun o => smart_restore_topo
          (some (store_merge_data o.idx_map [(0,0,0), (0,0,1)] []))
          o.new_verts)
      = some (RestoreResult.created [(0,0,0), (0,0,0)] []) ∧
    ([(0,0,0), (0,0,0)] : List V3) ≠ [(0,0,0), (0,0,1)] := by decide

/-- Claim C3 (amended): merge followed immediately by restore (the
restore reading exactly the vertex array the merge produced) always
reproduces the original face list exactly; and it reproduces the original
coordinate list exactly provided any two vertices lying within the
threshold of each other have exactly equal coordinates (only exact
duplicates are merged).  In general each restored vertex sits at its
group representative's original position, which the counterexample shows
can differ from its own. -/
theorem C3_round_trip (sigma : List ℕ → List ℕ) (coords : List V3)
    (faces : List (List ℕ)) (t : ℚ) (out : MergeOutput)
    (rc : List V3) (fc : List (List ℕ))
    (hs : PySetList sigma)
    (hco : ∀ i ∈ List.range coords.length, ∀ j ∈ List.range coords.length,
      dist2 (coords.getD i v3z) (coords.getD j v3z) ≤ t * t →
      coords.getD i v3z = coords.getD j v3z)
    (hmerge : smart_merge_topo sigma coords faces t = some out)
    (hrest : smart_restore_topo
        (some (store_merge_data out.idx_map coords faces)) out.new_verts
      = RestoreResult.created rc fc) :
    rc = coords ∧ fc = faces := by
  rcases smart_merge_inv hmerge with ⟨hm, hp, hq, _, _⟩
  have hP : ∀ i k, dget out.merge_map i = some k →
      coords.getD k v3z = coords.getD i v3z := by
    refine buildMergeMapLoop_val
      (fun i k => coords.getD k v3z = coords.getD i v3z)
      _ _ _ hm (fun i k hik => absurd hik (by simp [dget_nil])) ?_
    intro g hg keeper tl hgk i hi
    have hmem := clusterGroups_mem hs coords t g hg
    rcases hmem i hi with ⟨hin, s, hsn, hdis, hall⟩
    have hkeep : keeper ∈ g := by rw [hgk]; exact List.mem_cons_self _ _
    rcases hmem keeper hkeep with ⟨hkn, _⟩
    have e1 : coords.getD i v3z = coords.getD s v3z :=
      hco i (List.mem_range.2 hin) s (List.mem_range.2 hsn) hdis
    have e2 : coords.getD keeper v3z = coords.getD s v3z :=
      hco keeper (List.mem_range.2 hkn) s (List.mem_range.2 hsn)
        (hall keeper hkeep)
    rw [e1, e2]
  have hv0 : ∀ j c, dget out.idx_first j = some c →
      out.new_verts.get? c = some (coords.getD j v3z) := by
    intro j c hj
    have hent := idxFirst_entry
      (fun i => keeperMem out.merge_map coords.length i)
      (fun i => coords.getD i v3z) (List.range coords.length)
      (List.nodup_range _) j c (by rw [hp]; exact hj)
    rw [hp] at hent
    exact hent.2
  have hvert : ∀ j c, dget out.idx_map j = some c →
      out.new_verts.get? c = some (coords.getD j v3z) :=
    buildIdxMapLoop_vert out.merge_map out.new_verts
      (fun i => coords.getD i v3z) hP _ _ _ _ hq hv0
  rcases restore_created_inv hrest with ⟨hopt, hfc⟩
  dsimp only [store_merge_data] at hopt hfc
  have hlen : rc.length = coords.length := by
    rw [optMap_length _ _ _ hopt, List.length_range]
  refine ⟨?_, hfc⟩
  apply List.ext
  intro i
  by_cases hi : i < coords.length
  · have hg := optMap_get? _ _ _ hopt i
    rw [List.get?_range hi] at hg
    have hg2 : rc.get? i = match dget out.idx_map i with
        | none => none
        | some c => out.new_verts.get? c := hg
    have hsome : (rc.get? i).isSome = true := by
      rw [List.get?_eq_get (by rw [hlen]; exact hi)]
      rfl
    cases hc2 : dget out.idx_map i with
    | none =>
      rw [hc2] at hg2
      have hg3 : rc.get? i = none := hg2
      rw [hg3] at hsome
      simp at hsome
    | some c =>
      rw [hc2] at hg2
      have hg3 : rc.get? i = out.new_verts.get? c := hg2
      rw [hg3, hvert i c hc2, get?_eq_getD hi]
  · rw [List.get?_eq_none.2 (by rw [hlen]; exact not_lt.1 hi),
      List.get?_eq_none.2 (not_lt.1 hi)]

theorem C3_witness :
    ([(0,0,0), (3,0,0)] : List V3) = [(0,0,0), (3,0,0)] ∧
      ([[0,1]] : List (List ℕ)) = [[0,1]] :=
  C3_round_trip pyAsc [(0,0,0), (3,0,0)] [[0,1]] 1
    ⟨[[0], [1]], [(0,0), (1,1)], [(0,0), (1,1)],
      [(0,0), (1,1), (0,0), (1,1)], [], [(0,0,0), (3,0,0)], [[0,1]]⟩
    [(0,0,0), (3,0,0)] [[0,1]] pyAsc_valid (by decide) (by decide)
    (by decide)

/-- Claim C7, counterexample: threshold 0 does not make every group a
singleton: the radius-0 query returns every vertex at distance exactly 0,
i.e. every exact duplicate of the seed, so two coincident vertices form
one group of size 2.  (And a strictly negative threshold lies outside the
documented domain [0, inf] of `KDTree.find_range`; in the model it makes
every query empty and merge then fails at `group[0]`.) -/
theorem C7_counterexample :
    (smart_merge_topo pyAsc [(0,0,0), (0,0,0)] [] 0).map (fun o => o.groups)
      = some [[0, 1]] ∧ ([0, 1] : List ℕ).length ≠ 1 := by decide

/-- Claim C7 (amended): with threshold exactly 0 and pairwise distinct
input coordinates, merge completes, every Cluster Group is the singleton
of its own seed (the radius query returns at least, and here only, the
seed itself), and the Rebuilt Mesh equals the input mesh: identical
vertex list and identical face list (identity reindexing), for any
snapshot whose faces are valid (ids in range and pairwise distinct within
a face, as the bmesh source guarantees). -/
theorem C7_threshold_zero (sigma : List ℕ → List ℕ) (coords : List V3)
    (faces : List (List ℕ))
    (hs : PySetList sigma)
    (hnd : coords.Nodup)
    (hface : ∀ f ∈ faces, f.Nodup ∧ ∀ i ∈ f, i < coords.length) :
    ∃ out, smart_merge_topo sigma coords faces 0 = some out ∧
      out.groups = (List.range coords.length).map (fun i => [i]) ∧
      out.new_verts = coords ∧ out.new_faces = faces := by
  have hinj : ∀ i j, i < coords.length → j < coords.length →
      coords.getD i v3z = coords.getD j v3z → i = j := by
    intro i j hi hj he
    refine List.get?_inj hi hnd ?_
    rw [get?_eq_getD hi, get?_eq_getD hj, he]
  have hgroups : clusterGroups sigma coords 0
      = (List.range coords.length).map (fun i => [i]) := by
    rw [clusterGroups, clusterLoop_singletons _ _ _ _
      (fun i hi => by
        rw [find_range_zero_singleton hinj (List.mem_range.1 hi)]
        exact pyset_singleton hs i)
      (fun i _ hmem => List.not_mem_nil i hmem)
      (List.nodup_range _)]
    simp
  rcases buildMergeMapLoop_some (clusterGroups sigma coords 0) []
      (by
        rw [hgroups]
        intro g hg
        rcases List.mem_map.1 hg with ⟨s, _, hsg⟩
        rw [← hsg]
        simp) with ⟨m, hm⟩
  have hmid : ∀ j, dget m j = if j < coords.length then some j else none := by
    apply buildMergeMap_singletons
    rw [← hgroups]
    exact hm
  have hkeep : keepers m coords.length = List.range coords.length :=
    keepers_of_id hmid
  rcases buildIdxFirstLoop_spec
      (fun i => keeperMem m coords.length i)
      (fun i => coords.getD i v3z) (List.range coords.length) [] []
      (List.nodup_range _) with ⟨h1, _, h3, _⟩
  have hfilter : (List.range coords.length).filter
      (fun i => keeperMem m coords.length i) = List.range coords.length :=
    hkeep
  rw [hfilter] at h1 h3
  rw [List.nil_append, map_getD_range] at h1
  rw [List.length_nil, ← List.range_eq_range'] at h3
  have hid1 : ∀ j, j < coords.length →
      dget (buildIdxFirstLoop (fun i => keeperMem m coords.length i)
        (fun i => coords.getD i v3z) [] [] (List.range coords.length)).1 j
      = some j := by
    refine map_dget_range_id ?_
    rw [h3, List.length_range]
  rcases buildIdxMapLoop_some2 m (List.range coords.length)
      (buildIdxFirstLoop (fun i => keeperMem m coords.length i)
        (fun i => coords.getD i v3z) [] [] (List.range coords.length)).1 []
      (fun i hi => by
        rw [hmid i, if_pos (List.mem_range.1 hi)]
        rfl) with ⟨q, hq⟩
  have hid2 : ∀ j, j < coords.length → dget q.1 j = some j := by
    intro j hj
    rw [buildIdxMapLoop_id m (List.range coords.length) _ _ _ hq
      (fun i hi => by rw [hmid i, if_pos (List.mem_range.1 hi)]) j]
    exact hid1 j hj
  rcases buildFacesLoop_some q.1 faces []
      (fun f hf i hi => by
        rw [hid2 i ((hface f hf).2 i hi)]
        rfl) with ⟨nf, hnf⟩
  have hnfe : nf = faces := by
    rw [buildFacesLoop_spec q.1 faces [] nf hnf, List.nil_append]
    apply filterMap_fix
    intro f hf
    rw [rewriteFace, optMap_id_of_fix (dget q.1) f
      (fun i hi => hid2 i ((hface f hf).2 i hi))]
    simp [(hface f hf).1]
  refine ⟨⟨clusterGroups sigma coords 0, m,
    (buildIdxFirstLoop (fun i => keeperMem m coords.length i)
      (fun i => coords.getD i v3z) [] [] (List.range coords.length)).1,
    q.1, q.2,
    (buildIdxFirstLoop (fun i => keeperMem m coords.length i)
      (fun i => coords.getD i v3z) [] [] (List.range coords.length)).2,
    nf⟩, ?_, hgroups, h1, hnfe⟩
  exact smart_merge_eq hm rfl (by rw [← hq]) hnf

theorem C7_witness :
    ∃ out, smart_merge_topo pyAsc [(0,0,0), (1,0,0)] [[0,1]] 0 = some out ∧
      out.groups = (List.range ([(0,0,0), (1,0,0)] : List V3).length).map
        (fun i => [i]) ∧
      out.new_verts = [(0,0,0), (1,0,0)] ∧ out.new_faces = [[0,1]] :=
  C7_threshold_zero pyAsc [(0,0,0), (1,0,0)] [[0,1]] pyAsc_valid
    (by decide) (by decide)
